import Mathlib

/-!
Verification development for the eSIM device crawler repository.

The repository crawls one page listing eSIM-compatible devices, extracts a
device list via a two-tier strategy (JSON-LD structured data with an HTML
heuristic fallback), persists the result, and delivers it to a webhook with
bounded retries.  This file gives a shallow embedding of the decision logic:

* a JSON value model with an executable serializer and parser, standing in
  for `json.dumps` / `json.loads` (restricted to the escape-free fragment the
  program's data lives in: integers, strings without characters that would
  need escaping, arrays, objects);
* `load_json_data` from `main.py` (single-object detection with a
  JSON-Lines fallback that skips malformed lines);
* `send_webhook_data` from `main.py` (retry loop over attempt outcomes);
* `cleanup_files` from `main.py` (best-effort artifact deletion);
* the spider `YesimDevicesSpider` from `esimcrawl/spiders/scrap.py`:
  `extract_json_ld_data`, `parse_html_fallback` and the coordinating
  `parse` callback.
-/

namespace EsimCrawl

/-! ## Definitions: the shallow embedding of the program -/

def isWsChar (c : Char) : Bool :=
  c = ' ' || c = '\n' || c = '\t' || c = '\r'

def isDigitChar (c : Char) : Bool :=
  48 ≤ c.toNat && c.toNat ≤ 57

def skipWs (cs : List Char) : List Char :=
  cs.dropWhile isWsChar

def stripChars (cs : List Char) : List Char :=
  ((cs.dropWhile isWsChar).reverse.dropWhile isWsChar).reverse

def pyStrip (s : String) : String :=
  String.mk (stripChars s.data)

def pyLower (s : String) : String :=
  String.mk (s.data.map Char.toLower)

def isSubStr (needle : List Char) : List Char → Bool
  | [] => needle.isEmpty
  | c :: rest => needle.isPrefixOf (c :: rest) || isSubStr needle rest

def lbrace : Char := '\x7b'

def rbrace : Char := '\x7d'

inductive Json : Type where
  | str : String → Json
  | num : Int → Json
  | bool : Bool → Json
  | null : Json
  | arr : List Json → Json
  | obj : List (String × Json) → Json
deriving Inhabited

def digitChar (n : Nat) : Char := Char.ofNat (48 + n)

def natDigitsGo : Nat → Nat → List Char → List Char
  | 0, _, acc => acc
  | fuel + 1, n, acc =>
    if n < 10 then digitChar n :: acc
    else natDigitsGo fuel (n / 10) (digitChar (n % 10) :: acc)

def natDigits (n : Nat) : List Char := natDigitsGo (n + 1) n []

def serInt (i : Int) : List Char :=
  if i < 0 then '-' :: natDigits i.natAbs else natDigits i.natAbs

mutual

/-- Compact JSON serialization (no added whitespace), the model of writing
a value to the output artifact. -/
def serJson : Json → List Char
  | .num i => serInt i
  | .str s => '"' :: s.data ++ ['"']
  | .bool true => 't' :: 'r' :: 'u' :: 'e' :: []
  | .bool false => 'f' :: 'a' :: 'l' :: 's' :: 'e' :: []
  | .null => 'n' :: 'u' :: 'l' :: 'l' :: []
  | .arr es => '[' :: serElems es ++ [']']
  | .obj fs => lbrace :: serMembers fs ++ [rbrace]

/-- Serialization of array elements, comma separated. -/
def serElems : List Json → List Char
  | [] => []
  | [e] => serJson e
  | e :: es => serJson e ++ ',' :: serElems es

/-- Serialization of object members, comma separated. -/
def serMembers : List (String × Json) → List Char
  | [] => []
  | [(k, v)] => '"' :: k.data ++ '"' :: ':' :: serJson v
  | (k, v) :: fs => ('"' :: k.data ++ '"' :: ':' :: serJson v) ++ ',' :: serMembers fs

end

def strOkChar (c : Char) : Bool :=
  c ≠ '"' && c ≠ '\\' && 32 ≤ c.toNat

def strOk (s : String) : Bool := s.data.all strOkChar

mutual

/-- Well-formedness of a JSON value for the escape-free serializer: every
string avoids characters that would need escaping, and object keys are
distinct at each level (mirroring Python `dict` semantics). -/
def jsonWF : Json → Bool
  | .null => true
  | .bool _ => true
  | .num _ => true
  | .str s => strOk s
  | .arr es => listWF es
  | .obj fs => membersWF fs

/-- Well-formedness of a list of JSON values. -/
def listWF : List Json → Bool
  | [] => true
  | e :: es => jsonWF e && listWF es

/-- Well-formedness of object members. -/
def membersWF : List (String × Json) → Bool
  | [] => true
  | (k, v) :: fs => strOk k && !(fs.any (fun p => p.1 == k)) && jsonWF v && membersWF fs

end

def digitsToNat (ds : List Char) : Nat :=
  ds.foldl (fun a c => a * 10 + (c.toNat - 48)) 0

def parseDigits (cs : List Char) : Option (Nat × List Char) :=
  let ds := cs.takeWhile isDigitChar
  if ds.isEmpty then none else some (digitsToNat ds, cs.dropWhile isDigitChar)

def parseStrBody (cs : List Char) : Option (String × List Char) :=
  let body := cs.takeWhile strOkChar
  match cs.dropWhile strOkChar with
  | '"' :: rest => some (String.mk body, rest)
  | _ => none

mutual

/-- Fuel-indexed recursive-descent JSON value parser. -/
def parseValue : Nat → List Char → Option (Json × List Char)
  | 0, _ => none
  | fuel + 1, cs =>
    match skipWs cs with
    | [] => none
    | c :: rest =>
      if isDigitChar c then
        (parseDigits (c :: rest)).map (fun p => (Json.num (Int.ofNat p.1), p.2))
      else
        match c, rest with
        | 'n', 'u' :: 'l' :: 'l' :: r => some (.null, r)
        | 't', 'r' :: 'u' :: 'e' :: r => some (.bool true, r)
        | 'f', 'a' :: 'l' :: 's' :: 'e' :: r => some (.bool false, r)
        | '"', r => (parseStrBody r).map (fun p => (Json.str p.1, p.2))
        | '-', r => (parseDigits r).map (fun p => (Json.num (-(p.1 : Int)), p.2))
        | '[', r =>
          match skipWs r with
          | [] => none
          | c2 :: r2 =>
            if c2 = ']' then some (.arr [], r2)
            else (parseElems fuel (c2 :: r2)).map (fun p => (Json.arr p.1, p.2))
        | c0, r =>
          if c0 = lbrace then
            match skipWs r with
            | [] => none
            | c2 :: r2 =>
              if c2 = rbrace then some (.obj [], r2)
              else (parseMembers fuel (c2 :: r2)).map (fun p => (Json.obj p.1, p.2))
          else none

/-- Parse one or more comma-separated elements followed by `]`. -/
def parseElems : Nat → List Char → Option (List Json × List Char)
  | 0, _ => none
  | fuel + 1, cs =>
    match parseValue fuel cs with
    | none => none
    | some (v, r) =>
      match skipWs r with
      | ',' :: r2 => (parseElems fuel r2).map (fun p => (v :: p.1, p.2))
      | ']' :: r2 => some ([v], r2)
      | _ => none

/-- Parse one or more comma-separated `"key": value` members followed by
a closing curly bracket. -/
def parseMembers : Nat → List Char → Option (List (String × Json) × List Char)
  | 0, _ => none
  | fuel + 1, cs =>
    match skipWs cs with
    | '"' :: r =>
      match parseStrBody r with
      | none => none
      | some (k, r1) =>
        match skipWs r1 with
        | ':' :: r2 =>
          match parseValue fuel r2 with
          | none => none
          | some (v, r3) =>
            match skipWs r3 with
            | ',' :: r4 => (parseMembers fuel r4).map (fun p => ((k, v) :: p.1, p.2))
            | c4 :: r4 => if c4 = rbrace then some ([(k, v)], r4) else none
            | _ => none
        | _ => none
    | _ => none

end

def parseJsonChars (cs : List Char) : Option Json :=
  match parseValue (cs.length + 1) cs with
  | some (v, rest) => if (skipWs rest).isEmpty then some v else none
  | none => none

def parseJson (s : String) : Option Json :=
  parseJsonChars s.data

def Boundary (cs : List Char) : Prop := cs.takeWhile isDigitChar = []

def splitNl : List Char → List (List Char)
  | [] => [[]]
  | c :: cs =>
    if c = '\n' then [] :: splitNl cs
    else
      match splitNl cs with
      | l :: ls => (c :: l) :: ls
      | [] => [[c]]

def joinNl : List (List Char) → List Char
  | [] => []
  | [l] => l
  | l :: ls => l ++ '\n' :: joinNl ls

def lineStep (acc : List Json × Nat) (line : List Char) : List Json × Nat :=
  let l := stripChars line
  if l.isEmpty then acc
  else
    match parseJsonChars l with
    | some o => (acc.1 ++ [o], acc.2)
    | none => (acc.1, acc.2 + 1)

def load_json_data (content : List Char) : Option Json × Nat :=
  let stripped := stripChars content
  match parseJsonChars stripped with
  | some data => (some data, 0)
  | none =>
    let step := (splitNl stripped).foldl lineStep ([], 0)
    if step.1.isEmpty then (none, step.2)
    else (some (Json.obj [("items", Json.arr step.1)]), step.2)

def validLineObjs (lines : List (List Char)) : List Json :=
  lines.filterMap (fun line =>
    let l := stripChars line
    if l.isEmpty then none else parseJsonChars l)

def malformedLineCount (lines : List (List Char)) : Nat :=
  lines.countP (fun line =>
    let l := stripChars line
    !l.isEmpty && (parseJsonChars l).isNone)

structure Heading where
  text : Option String
  followingLists : List (List String)

structure HtmlDoc where
  url : String
  text : String
  jsonLdScripts : List String
  listItemTexts : List (Option String)
  headings : List Heading

structure DevicesResult where
  category : String
  devices : List String
  source : String
  total_devices : Nat
  url : String
  title : Option Json

inductive CrawlItem where
  | devices (r : DevicesResult)
  | blocked (url : String) (error : String) (content_preview : String)
  | noDevices (url : String)
  | noData (url : String)

def lookupLast (fs : List (String × Json)) (k : String) : Option Json :=
  fs.foldl (fun acc p => if p.1 = k then some p.2 else acc) none

def extractNames : List Json → Except Unit (List String)
  | [] => .ok []
  | item :: rest =>
    match item with
    | .obj fs =>
      match lookupLast fs "name" with
      | some (.str s) =>
        match extractNames rest with
        | .error e => .error e
        | .ok tail =>
          let t := pyStrip s
          if t ≠ "" ∧ 2 < t.length then .ok (t :: tail) else .ok tail
      | some _ => .error ()
      | none => extractNames rest
    | _ => extractNames rest

def jsonLdShape (d : Json) : Option (List Json) :=
  match d with
  | .obj fs =>
    match lookupLast fs "mainEntity" with
    | some (.obj mfs) =>
      match lookupLast mfs "itemListElement" with
      | some (.arr items) => if 0 < items.length then some items else none
      | some _ => none
      | none => none
    | some _ => none
    | none => none
  | _ => none

def jsonLdTitle (d : Json) : Json :=
  match d with
  | .obj fs => (lookupLast fs "name").getD (Json.str "eSIM Compatible Devices List")
  | _ => Json.str "eSIM Compatible Devices List"

def extractScripts (url : String) : List String → Option DevicesResult
  | [] => none
  | s :: rest =>
    match parseJson s with
    | none => extractScripts url rest
    | some data =>
      match jsonLdShape data with
      | none => extractScripts url rest
      | some items =>
        match extractNames items with
        | .error _ => none
        | .ok devices =>
          if devices.isEmpty then none
          else some
            { category := "eSIM Compatible Devices"
              devices := devices
              source := "json_ld_schema"
              total_devices := devices.length
              url := url
              title := some (jsonLdTitle data) }

def extract_json_ld_data (doc : HtmlDoc) : Option DevicesResult :=
  extractScripts doc.url doc.jsonLdScripts

def deviceKeywords : List String :=
  ["iphone", "samsung", "pixel", "oneplus", "xiaomi", "huawei",
   "motorola", "galaxy", "ipad", "watch", "surface", "thinkpad"]

def headingKeywords : List String :=
  ["device", "phone", "tablet", "compatible", "esim"]

def strContains (haystack needle : String) : Bool :=
  isSubStr needle.data haystack.data

def fallbackPassA (items : List (Option String)) : List String :=
  items.filterMap (fun it =>
    match it with
    | none => none
    | some t =>
      if t = "" then none
      else
        let s := pyStrip t
        if 3 < s.length ∧ deviceKeywords.any (fun kw => strContains (pyLower s) kw)
        then some s else none)

def fallbackPassB (hs : List Heading) : List String :=
  hs.flatMap (fun h =>
    match h.text with
    | none => []
    | some ht =>
      if ht = "" then []
      else if headingKeywords.any (fun kw => strContains (pyLower ht) kw) then
        h.followingLists.flatMap (fun ul =>
          ul.filterMap (fun it =>
            let s := pyStrip it
            if s ≠ "" ∧ 3 < s.length then some s else none))
      else [])

def pyListSetGo : List String → List String → List String
  | [], _ => []
  | x :: xs, seen =>
    if seen.contains x then pyListSetGo xs seen
    else x :: pyListSetGo xs (x :: seen)

def pyListSet (l : List String) : List String := pyListSetGo l []

def fallbackFiltered (doc : HtmlDoc) : List String :=
  (pyListSet (fallbackPassA doc.listItemTexts ++ fallbackPassB doc.headings)).filter
    (fun d => 3 < d.length)

def parse_html_fallback (doc : HtmlDoc) : List CrawlItem :=
  if (fallbackFiltered doc).isEmpty then
    [CrawlItem.noDevices doc.url]
  else
    [CrawlItem.devices
      { category := "eSIM Compatible Devices (HTML Fallback)"
        devices := fallbackFiltered doc
        source := "html_fallback"
        total_devices := (fallbackFiltered doc).length
        url := doc.url
        title := none }]

def blockedCheck (doc : HtmlDoc) : Bool :=
  strContains (pyLower doc.text) "cloudflare" || strContains (pyLower doc.text) "aws waf"

def parse (doc : HtmlDoc) : CrawlItem :=
  if blockedCheck doc then
    CrawlItem.blocked doc.url "Cloudflare/AWS WAF protection detected"
      (String.mk (doc.text.data.take 200))
  else
    match extract_json_ld_data doc with
    | some r => CrawlItem.devices r
    | none =>
      match parse_html_fallback doc with
      | x :: _ => x
      | [] => CrawlItem.noData doc.url

def specNames (items : List Json) : List String :=
  items.filterMap (fun item =>
    match item with
    | .obj fs =>
      match lookupLast fs "name" with
      | some (.str s) =>
        let t := pyStrip s
        if t ≠ "" ∧ 2 < t.length then some t else none
      | _ => none
    | _ => none)

def itemNameOk (item : Json) : Bool :=
  match item with
  | .obj fs =>
    match lookupLast fs "name" with
    | some (.str _) => true
    | some _ => false
    | none => true
  | _ => true

def scriptNonMatching (s : String) : Bool :=
  match parseJson s with
  | none => true
  | some d => (jsonLdShape d).isNone

inductive AttemptOutcome where
  | status (code : Nat)
  | transportError
  | otherError
deriving DecidableEq

def isRetryFailure : AttemptOutcome → Bool
  | .status c => decide (c ≠ 200)
  | .transportError => true
  | .otherError => false

def send_webhook_data : List AttemptOutcome → Bool × Nat
  | [] => (false, 0)
  | o :: rest =>
    match o with
    | .status c =>
      if c = 200 then (true, 1)
      else
        let r := send_webhook_data rest
        (r.1, r.2 + 1)
    | .transportError =>
      if rest.isEmpty then (false, 1)
      else
        let r := send_webhook_data rest
        (r.1, r.2 + 1)
    | .otherError => (false, 1)

def successSpec (outcomes : List AttemptOutcome) : Prop :=
  ∃ i, outcomes[i]? = some (.status 200) ∧
    (outcomes.take i).all isRetryFailure = true

inductive LogLevel where
  | info
  | error
deriving DecidableEq

def json_output : String := "yesim_devices.json"

def rendered_page : String := "rendered_page.html"

def log_file : String := "esim_crawler.log"

structure FileSys where
  outputPresent : Bool
  outputUnlink : Except String Unit
  renderedPresent : Bool
  renderedUnlink : Except String Unit
  logPresent : Bool
  logUnlink : Except String Unit

def guardedDelete (path : String) (present : Bool) (unlinkRes : Except String Unit)
    (catchLevel : LogLevel) (catchMsg : String → String) :
    Except String (List (LogLevel × String)) :=
  if present then
    Except.tryCatch
      (do
        let _ ← unlinkRes
        pure [(LogLevel.info, "Deleted " ++ path)])
      (fun e => pure [(catchLevel, catchMsg e)])
  else
    pure [(LogLevel.info, path ++ " not found, skipping deletion.")]

def cleanup_files (fs : FileSys) : Except String (List (LogLevel × String)) := do
  let l1 ← guardedDelete json_output fs.outputPresent fs.outputUnlink LogLevel.error
    (fun e => "Error deleting " ++ json_output ++ ": " ++ e)
  let l2 ← guardedDelete rendered_page fs.renderedPresent fs.renderedUnlink LogLevel.error
    (fun e => "Error deleting " ++ rendered_page ++ ": " ++ e)
  let l3 ← guardedDelete log_file fs.logPresent fs.logUnlink LogLevel.info
    (fun e => "Could not delete " ++ log_file ++ " (file may be in use): " ++ e)
  pure ([(LogLevel.info, "Starting file cleanup...")] ++ l1 ++ l2 ++ l3 ++
    [(LogLevel.info, "File cleanup completed.")])

/-! ## Theorems -/

theorem natDigitsGo_acc : ∀ (fuel n : Nat) (acc : List Char),
    natDigitsGo fuel n acc = natDigitsGo fuel n [] ++ acc := by
  intro fuel
  induction fuel with
  | zero => intro n acc; rfl
  | succ fuel ih =>
    intro n acc
    simp only [natDigitsGo]
    split
    · rfl
    · rw [ih (n / 10) (digitChar (n % 10) :: acc), ih (n / 10) [digitChar (n % 10)],
        List.append_assoc]
      rfl

theorem natDigitsGo_fuel : ∀ (n f1 f2 : Nat), n < f1 → n < f2 →
    natDigitsGo f1 n [] = natDigitsGo f2 n [] := by
  intro n
  induction n using Nat.strong_induction_on with
  | _ n ih =>
    intro f1 f2 h1 h2
    obtain ⟨g1, rfl⟩ : ∃ g, f1 = g + 1 := ⟨f1 - 1, by omega⟩
    obtain ⟨g2, rfl⟩ : ∃ g, f2 = g + 1 := ⟨f2 - 1, by omega⟩
    simp only [natDigitsGo]
    split
    · rfl
    · rename_i h10
      have hlt : n / 10 < n := Nat.div_lt_self (by omega) (by omega)
      rw [natDigitsGo_acc g1, natDigitsGo_acc g2,
        ih (n / 10) hlt g1 g2 (by omega) (by omega)]

theorem natDigits_eq (n : Nat) : natDigits n =
    if n < 10 then [digitChar n] else natDigits (n / 10) ++ [digitChar (n % 10)] := by
  by_cases h10 : n < 10
  · simp only [natDigits, natDigitsGo, if_pos h10]
  · rw [if_neg h10]
    show natDigitsGo (n + 1) n [] = natDigits (n / 10) ++ [digitChar (n % 10)]
    rw [show natDigitsGo (n + 1) n [] = natDigitsGo n (n / 10) [digitChar (n % 10)] from by
      simp only [natDigitsGo, if_neg h10]]
    rw [natDigitsGo_acc n,
      natDigitsGo_fuel (n / 10) n (n / 10 + 1) (by omega) (by omega)]
    rfl

theorem toNat_digitChar {n : Nat} (h : n < 10) : (digitChar n).toNat = 48 + n := by
  interval_cases n <;> rfl

theorem isDigitChar_digitChar {n : Nat} (h : n < 10) : isDigitChar (digitChar n) = true := by
  interval_cases n <;> rfl

theorem natDigits_all_digits : ∀ n : Nat, ∀ c ∈ natDigits n, isDigitChar c = true := by
  intro n
  induction n using Nat.strong_induction_on with
  | _ n ih =>
    rw [natDigits_eq]
    split
    · intro c hc
      simp only [List.mem_singleton] at hc
      subst hc
      exact isDigitChar_digitChar (by omega)
    · intro c hc
      rw [List.mem_append] at hc
      rcases hc with hc | hc
      · exact ih (n / 10) (Nat.div_lt_self (by omega) (by omega)) c hc
      · simp only [List.mem_singleton] at hc
        subst hc
        exact isDigitChar_digitChar (Nat.mod_lt _ (by omega))

theorem natDigits_ne_nil (n : Nat) : natDigits n ≠ [] := by
  rw [natDigits_eq]
  split <;> simp

theorem digitsToNat_natDigits : ∀ n : Nat, digitsToNat (natDigits n) = n := by
  intro n
  induction n using Nat.strong_induction_on with
  | _ n ih =>
    rw [natDigits_eq]
    split
    · rename_i h
      simp only [digitsToNat, List.foldl_cons, List.foldl_nil]
      rw [toNat_digitChar h]
      omega
    · rename_i h
      simp only [digitsToNat, List.foldl_append, List.foldl_cons, List.foldl_nil]
      have hrec := ih (n / 10) (Nat.div_lt_self (by omega) (by omega))
      simp only [digitsToNat] at hrec
      rw [hrec, toNat_digitChar (Nat.mod_lt _ (by omega))]
      omega

theorem isDigitChar_bounds {c : Char} (h : isDigitChar c = true) :
    48 ≤ c.toNat ∧ c.toNat ≤ 57 := by
  simpa [isDigitChar] using h

theorem digit_not_ws {c : Char} (h : isDigitChar c = true) : isWsChar c = false := by
  have hb := isDigitChar_bounds h
  cases hws : isWsChar c
  · rfl
  · exfalso
    have hc : ((c = ' ' ∨ c = '\n') ∨ c = '\t') ∨ c = '\r' := by
      simpa [isWsChar, Bool.or_eq_true, decide_eq_true_eq] using hws
    rcases hc with ((rfl | rfl) | rfl) | rfl <;> revert hb <;> decide

theorem digit_ne_rbrack {c : Char} (h : isDigitChar c = true) : ¬(c = ']') := by
  have hb := isDigitChar_bounds h
  rintro rfl; revert hb; decide

theorem takeWhile_append_of_all {α : Type} {p : α → Bool} :
    ∀ {xs ys : List α}, (∀ a ∈ xs, p a = true) →
      (xs ++ ys).takeWhile p = xs ++ ys.takeWhile p := by
  intro xs
  induction xs with
  | nil => intro ys _; simp
  | cons x xs ih =>
    intro ys h
    have hx : p x = true := h x (by simp)
    simp only [List.cons_append, List.takeWhile_cons, hx, if_true]
    rw [ih (fun a ha => h a (by simp [ha]))]

theorem dropWhile_append_of_all {α : Type} {p : α → Bool} :
    ∀ {xs ys : List α}, (∀ a ∈ xs, p a = true) →
      (xs ++ ys).dropWhile p = ys.dropWhile p := by
  intro xs
  induction xs with
  | nil => intro ys _; simp
  | cons x xs ih =>
    intro ys h
    have hx : p x = true := h x (by simp)
    simp only [List.cons_append, List.dropWhile_cons, hx, if_true]
    exact ih (fun a ha => h a (by simp [ha]))

theorem dropWhile_of_takeWhile_nil {α : Type} {p : α → Bool} {cs : List α}
    (h : cs.takeWhile p = []) : cs.dropWhile p = cs := by
  cases cs with
  | nil => rfl
  | cons c cs =>
    simp only [List.takeWhile_cons] at h
    simp only [List.dropWhile_cons]
    split at h
    · exact absurd h (by simp)
    · rename_i hp
      simp [hp]

theorem skipWs_cons_of_not_ws {c : Char} {cs : List Char} (h : isWsChar c = false) :
    skipWs (c :: cs) = c :: cs := by
  simp [skipWs, List.dropWhile_cons, h]

theorem boundary_nil : Boundary [] := rfl

theorem boundary_cons {c : Char} {cs : List Char} (h : isDigitChar c = false) :
    Boundary (c :: cs) := by
  simp [Boundary, List.takeWhile_cons, h]

theorem parseDigits_natDigits (n : Nat) {rest : List Char} (hb : Boundary rest) :
    parseDigits (natDigits n ++ rest) = some (n, rest) := by
  unfold parseDigits
  rw [takeWhile_append_of_all (natDigits_all_digits n),
    dropWhile_append_of_all (natDigits_all_digits n), hb,
    dropWhile_of_takeWhile_nil hb, List.append_nil]
  simp [natDigits_ne_nil n, digitsToNat_natDigits n]

theorem quote_not_strOk : strOkChar '"' = false := by decide

theorem parseStrBody_ser (s : String) (hs : strOk s = true) (rest : List Char) :
    parseStrBody (s.data ++ '"' :: rest) = some (s, rest) := by
  have hall : ∀ c ∈ s.data, strOkChar c = true := by
    simpa [strOk, List.all_eq_true] using hs
  unfold parseStrBody
  rw [takeWhile_append_of_all hall, dropWhile_append_of_all hall]
  simp only [List.takeWhile_cons, quote_not_strOk, if_false, List.dropWhile_cons,
    Bool.false_eq_true, List.append_nil]

theorem parseValue_null (f : Nat) (rest : List Char) :
    parseValue (f + 1) ('n' :: 'u' :: 'l' :: 'l' :: rest) = some (.null, rest) := rfl

theorem parseValue_true (f : Nat) (rest : List Char) :
    parseValue (f + 1) ('t' :: 'r' :: 'u' :: 'e' :: rest) = some (.bool true, rest) := rfl

theorem parseValue_false (f : Nat) (rest : List Char) :
    parseValue (f + 1) ('f' :: 'a' :: 'l' :: 's' :: 'e' :: rest) = some (.bool false, rest) := rfl

theorem parseValue_quote (f : Nat) (rest : List Char) :
    parseValue (f + 1) ('"' :: rest) =
      (parseStrBody rest).map (fun p => (Json.str p.1, p.2)) := rfl

theorem parseValue_neg (f : Nat) (rest : List Char) :
    parseValue (f + 1) ('-' :: rest) =
      (parseDigits rest).map (fun p => (Json.num (-(p.1 : Int)), p.2)) := rfl

theorem parseValue_digit (f : Nat) {c : Char} (rest : List Char)
    (h : isDigitChar c = true) :
    parseValue (f + 1) (c :: rest) =
      (parseDigits (c :: rest)).map (fun p => (Json.num (Int.ofNat p.1), p.2)) := by
  simp only [parseValue, skipWs_cons_of_not_ws (digit_not_ws h), h, if_true]

theorem parseValue_arrCons (f : Nat) (rest : List Char) :
    parseValue (f + 1) ('[' :: rest) =
      (match skipWs rest with
       | [] => none
       | c2 :: r2 =>
         if c2 = ']' then some (Json.arr [], r2)
         else (parseElems f (c2 :: r2)).map (fun p => (Json.arr p.1, p.2))) := rfl

theorem parseValue_objCons (f : Nat) (rest : List Char) :
    parseValue (f + 1) (lbrace :: rest) =
      (match skipWs rest with
       | [] => none
       | c2 :: r2 =>
         if c2 = rbrace then some (Json.obj [], r2)
         else (parseMembers f (c2 :: r2)).map (fun p => (Json.obj p.1, p.2))) := rfl

theorem natDigits_head (n : Nat) :
    ∃ c cs', natDigits n = c :: cs' ∧ isDigitChar c = true := by
  induction n using Nat.strong_induction_on with
  | _ n ih =>
    rw [natDigits_eq]
    split
    · rename_i h
      exact ⟨digitChar n, [], rfl, isDigitChar_digitChar h⟩
    · rename_i h
      obtain ⟨c, cs', heq, hd⟩ := ih (n / 10) (Nat.div_lt_self (by omega) (by omega))
      exact ⟨c, cs' ++ [digitChar (n % 10)], by rw [heq]; rfl, hd⟩

theorem serJson_head_spec (v : Json) :
    ∃ c cs', serJson v = c :: cs' ∧ isWsChar c = false ∧ ¬(c = ']') ∧ ¬(c = rbrace) := by
  cases v with
  | null => refine ⟨'n', _, rfl, ?_, ?_, ?_⟩ <;> decide
  | bool b => cases b <;> refine ⟨_, _, rfl, ?_, ?_, ?_⟩ <;> decide
  | num i =>
    simp only [serJson, serInt]
    split
    · refine ⟨'-', _, rfl, ?_, ?_, ?_⟩ <;> decide
    · obtain ⟨c, cs', heq, hd⟩ := natDigits_head i.natAbs
      refine ⟨c, cs', heq, digit_not_ws hd, digit_ne_rbrack hd, ?_⟩
      have hb := isDigitChar_bounds hd
      rintro rfl; revert hb; decide
  | str s => refine ⟨'"', _, rfl, ?_, ?_, ?_⟩ <;> decide
  | arr es => refine ⟨'[', _, rfl, ?_, ?_, ?_⟩ <;> decide
  | obj fs => refine ⟨lbrace, _, rfl, ?_, ?_, ?_⟩ <;> decide

theorem serElems_head_spec {e : Json} (es : List Json) :
    ∃ c cs', serElems (e :: es) = c :: cs' ∧ isWsChar c = false ∧ ¬(c = ']') := by
  obtain ⟨c, cs', heq, hws, hbr, _⟩ := serJson_head_spec e
  cases es with
  | nil => exact ⟨c, cs', by simp [serElems, heq], hws, hbr⟩
  | cons e2 es2 =>
    exact ⟨c, cs' ++ ',' :: serElems (e2 :: es2), by simp [serElems, heq], hws, hbr⟩

theorem serMembers_head_spec {k : String} {v : Json} (fs : List (String × Json)) :
    ∃ cs', serMembers ((k, v) :: fs) = '"' :: cs' := by
  cases fs with
  | nil => exact ⟨_, rfl⟩
  | cons f2 fs2 => exact ⟨_, rfl⟩

theorem serJson_length_pos (v : Json) : 0 < (serJson v).length := by
  obtain ⟨c, cs', heq, -⟩ := serJson_head_spec v
  rw [heq]
  simp

theorem parse_ser_all : ∀ fuel : Nat,
    (∀ v rest, jsonWF v = true → (serJson v).length + 1 ≤ fuel → Boundary rest →
       parseValue fuel (serJson v ++ rest) = some (v, rest)) ∧
    (∀ e es rest, listWF (e :: es) = true →
       (serElems (e :: es)).length + 2 ≤ fuel → Boundary rest →
       parseElems fuel (serElems (e :: es) ++ ']' :: rest) = some (e :: es, rest)) ∧
    (∀ k v fs rest, membersWF ((k, v) :: fs) = true →
       (serMembers ((k, v) :: fs)).length + 2 ≤ fuel → Boundary rest →
       parseMembers fuel (serMembers ((k, v) :: fs) ++ rbrace :: rest) =
         some ((k, v) :: fs, rest)) := by
  intro fuel
  induction fuel using Nat.strong_induction_on with
  | _ fuel ih =>
    refine ⟨?_, ?_, ?_⟩
    · -- parseValue
      intro v rest hwf hlen hb
      obtain ⟨f, rfl⟩ : ∃ f, fuel = f + 1 := by
        cases fuel
        · exact absurd hlen (by omega)
        · exact ⟨_, rfl⟩
      cases v with
      | null => exact parseValue_null f rest
      | bool b => cases b
                  · exact parseValue_false f rest
                  · exact parseValue_true f rest
      | num i =>
        by_cases hi : i < 0
        · have hser : serJson (Json.num i) = '-' :: natDigits i.natAbs := by
            simp [serJson, serInt, hi]
          rw [hser, List.cons_append, parseValue_neg, parseDigits_natDigits _ hb]
          have hv : -(i.natAbs : Int) = i := by omega
          show some (Json.num (-(i.natAbs : Int)), rest) = some (Json.num i, rest)
          rw [hv]
        · have hser : serJson (Json.num i) = natDigits i.natAbs := by
            simp [serJson, serInt, hi]
          obtain ⟨c, cs', heq, hd⟩ := natDigits_head i.natAbs
          rw [hser, heq, List.cons_append, parseValue_digit f _ hd,
            ← List.cons_append, ← heq, parseDigits_natDigits _ hb]
          have hv : ((i.natAbs : Nat) : Int) = i := by omega
          show some (Json.num ((i.natAbs : Nat) : Int), rest) = some (Json.num i, rest)
          rw [hv]
      | str s =>
        have hs : strOk s = true := by simpa [jsonWF] using hwf
        have hser : serJson (Json.str s) ++ rest = '"' :: (s.data ++ '"' :: rest) := by
          simp [serJson]
        rw [hser, parseValue_quote, parseStrBody_ser s hs]
        rfl
      | arr es =>
        cases es with
        | nil => rfl
        | cons e es2 =>
          have hwf' : listWF (e :: es2) = true := by simpa [jsonWF] using hwf
          have hlen' : (serElems (e :: es2)).length + 2 ≤ f := by
            have : (serJson (Json.arr (e :: es2))).length =
                (serElems (e :: es2)).length + 2 := by
              simp [serJson]
            omega
          have hser : serJson (Json.arr (e :: es2)) ++ rest =
              '[' :: (serElems (e :: es2) ++ ']' :: rest) := by
            simp [serJson]
          rw [hser, parseValue_arrCons]
          obtain ⟨c, cs', heqE, hwsE, hneE⟩ := serElems_head_spec (e := e) es2
          rw [heqE, List.cons_append, skipWs_cons_of_not_ws hwsE]
          simp only [if_neg hneE]
          rw [← List.cons_append, ← heqE, (ih f (by omega)).2.1 e es2 rest hwf' hlen' hb]
          rfl
      | obj fs =>
        cases fs with
        | nil => rfl
        | cons kv fs2 =>
          obtain ⟨k, v⟩ := kv
          have hwf' : membersWF ((k, v) :: fs2) = true := by simpa [jsonWF] using hwf
          have hlen' : (serMembers ((k, v) :: fs2)).length + 2 ≤ f := by
            have : (serJson (Json.obj ((k, v) :: fs2))).length =
                (serMembers ((k, v) :: fs2)).length + 2 := by
              simp [serJson]
            omega
          have hser : serJson (Json.obj ((k, v) :: fs2)) ++ rest =
              lbrace :: (serMembers ((k, v) :: fs2) ++ rbrace :: rest) := by
            simp [serJson]
          rw [hser, parseValue_objCons]
          obtain ⟨cs', heqM⟩ := serMembers_head_spec (k := k) (v := v) fs2
          rw [heqM, List.cons_append, skipWs_cons_of_not_ws (by decide)]
          simp only [if_neg (by decide : ¬('"' = rbrace))]
          rw [← List.cons_append, ← heqM,
            (ih f (by omega)).2.2 k v fs2 rest hwf' hlen' hb]
          rfl
    · -- parseElems
      intro e es rest hwf hlen hb
      obtain ⟨f, rfl⟩ : ∃ f, fuel = f + 1 := by
        cases fuel
        · exact absurd hlen (by omega)
        · exact ⟨_, rfl⟩
      cases es with
      | nil =>
        have hwfe : jsonWF e = true := by simpa [listWF] using hwf
        have hlen' : (serJson e).length + 1 ≤ f := by
          have : serElems [e] = serJson e := by simp [serElems]
          rw [this] at hlen
          omega
        have hser : serElems [e] ++ ']' :: rest = serJson e ++ ']' :: rest := by
          simp [serElems]
        rw [hser]
        simp only [parseElems]
        rw [(ih f (by omega)).1 e (']' :: rest) hwfe hlen' (boundary_cons (by decide))]
        rfl
      | cons e2 es2 =>
        have hwfe : jsonWF e = true ∧ listWF (e2 :: es2) = true := by
          simpa [listWF, Bool.and_eq_true] using hwf
        have hlenEq : (serElems (e :: e2 :: es2)).length =
            (serJson e).length + 1 + (serElems (e2 :: es2)).length := by
          simp [serElems]
          omega
        have hser : serElems (e :: e2 :: es2) ++ ']' :: rest =
            serJson e ++ ',' :: (serElems (e2 :: es2) ++ ']' :: rest) := by
          simp [serElems]
        rw [hser]
        simp only [parseElems]
        rw [(ih f (by omega)).1 e _ hwfe.1 (by omega) (boundary_cons (by decide))]
        simp only [skipWs_cons_of_not_ws (by decide : isWsChar ',' = false)]
        rw [(ih f (by omega)).2.1 e2 es2 rest hwfe.2 (by omega) hb]
        rfl
    · -- parseMembers
      intro k v fs rest hwf hlen hb
      obtain ⟨f, rfl⟩ : ∃ f, fuel = f + 1 := by
        cases fuel
        · exact absurd hlen (by omega)
        · exact ⟨_, rfl⟩
      cases fs with
      | nil =>
        have hwf' : strOk k = true ∧ jsonWF v = true := by
          simpa [membersWF, Bool.and_eq_true] using hwf
        have hlenEq : (serMembers [(k, v)]).length =
            k.data.length + (serJson v).length + 3 := by
          simp [serMembers]
          omega
        have hser : serMembers [(k, v)] ++ rbrace :: rest =
            '"' :: (k.data ++ '"' :: (':' :: (serJson v ++ rbrace :: rest))) := by
          simp [serMembers]
        rw [hser]
        simp only [parseMembers, skipWs_cons_of_not_ws (by decide : isWsChar '"' = false),
          parseStrBody_ser k hwf'.1,
          skipWs_cons_of_not_ws (by decide : isWsChar ':' = false)]
        rw [(ih f (by omega)).1 v (rbrace :: rest) hwf'.2 (by omega)
          (boundary_cons (by decide))]
        simp only [skipWs_cons_of_not_ws (by decide : isWsChar rbrace = false)]
        rfl
      | cons kv2 fs2 =>
        obtain ⟨k2, v2⟩ := kv2
        have hwf' : strOk k = true ∧ jsonWF v = true ∧
            membersWF ((k2, v2) :: fs2) = true := by
          simp only [membersWF, Bool.and_eq_true] at hwf
          refine ⟨by tauto, by tauto, ?_⟩
          simp only [membersWF, Bool.and_eq_true]
          tauto
        have hlenEq : (serMembers ((k, v) :: (k2, v2) :: fs2)).length =
            k.data.length + (serJson v).length + 4 +
              (serMembers ((k2, v2) :: fs2)).length := by
          simp [serMembers]
          omega
        have hser : serMembers ((k, v) :: (k2, v2) :: fs2) ++ rbrace :: rest =
            '"' :: (k.data ++ '"' :: (':' :: (serJson v ++
              ',' :: (serMembers ((k2, v2) :: fs2) ++ rbrace :: rest)))) := by
          simp [serMembers]
        rw [hser]
        simp only [parseMembers, skipWs_cons_of_not_ws (by decide : isWsChar '"' = false),
          parseStrBody_ser k hwf'.1,
          skipWs_cons_of_not_ws (by decide : isWsChar ':' = false)]
        rw [(ih f (by omega)).1 v _ hwf'.2.1 (by omega) (boundary_cons (by decide))]
        simp only [skipWs_cons_of_not_ws (by decide : isWsChar ',' = false)]
        rw [(ih f (by omega)).2.2 k2 v2 fs2 rest hwf'.2.2 (by omega) hb]
        rfl

theorem parseJsonChars_serJson (v : Json) (hwf : jsonWF v = true) :
    parseJsonChars (serJson v) = some v := by
  unfold parseJsonChars
  have h := (parse_ser_all ((serJson v).length + 1)).1 v [] hwf (by omega) boundary_nil
  rw [List.append_nil] at h
  rw [h]
  rfl

theorem foldl_lineStep : ∀ (lines : List (List Char)) (acc : List Json × Nat),
    lines.foldl lineStep acc =
      (acc.1 ++ validLineObjs lines, acc.2 + malformedLineCount lines) := by
  intro lines
  induction lines with
  | nil => intro acc; simp [validLineObjs, malformedLineCount]
  | cons line rest ih =>
    intro acc
    simp only [List.foldl_cons, ih]
    by_cases hemp : (stripChars line).isEmpty
    · have h' : stripChars line = [] := by simpa using hemp
      simp [lineStep, validLineObjs, malformedLineCount, List.filterMap_cons,
        List.countP_cons, hemp, h']
    · have h' : ¬(stripChars line = []) := by simpa using hemp
      cases hp : parseJsonChars (stripChars line) with
      | some o =>
        simp [lineStep, validLineObjs, malformedLineCount, List.filterMap_cons,
          List.countP_cons, hemp, h', hp]
      | none =>
        simp [lineStep, validLineObjs, malformedLineCount, List.filterMap_cons,
          List.countP_cons, hemp, h', hp]
        omega

theorem strOkChar_ne_nl {c : Char} (h : strOkChar c = true) : ¬(c = '\n') := by
  have hb : 32 ≤ c.toNat := by
    simp only [strOkChar, Bool.and_eq_true, decide_eq_true_eq] at h
    exact h.2
  rintro rfl; revert hb; decide

theorem digit_ne_nl {c : Char} (h : isDigitChar c = true) : ¬(c = '\n') := by
  have hb := isDigitChar_bounds h
  rintro rfl; revert hb; decide

theorem ser_no_nl : ∀ n : Nat,
    (∀ v : Json, sizeOf v ≤ n → jsonWF v = true → ∀ c ∈ serJson v, ¬(c = '\n')) ∧
    (∀ es : List Json, sizeOf es ≤ n → listWF es = true →
      ∀ c ∈ serElems es, ¬(c = '\n')) ∧
    (∀ fs : List (String × Json), sizeOf fs ≤ n → membersWF fs = true →
      ∀ c ∈ serMembers fs, ¬(c = '\n')) := by
  intro n
  induction n using Nat.strong_induction_on with
  | _ n ih =>
    refine ⟨?_, ?_, ?_⟩
    · intro v hsz hwf c hc
      cases v with
      | null =>
        simp only [serJson, List.mem_cons, List.mem_singleton, List.not_mem_nil,
          or_false] at hc
        rcases hc with rfl | rfl | rfl | rfl <;> decide
      | bool b =>
        cases b <;>
          simp only [serJson, List.mem_cons, List.mem_singleton, List.not_mem_nil,
            or_false] at hc
        · rcases hc with rfl | rfl | rfl | rfl | rfl <;> decide
        · rcases hc with rfl | rfl | rfl | rfl <;> decide
      | num i =>
        simp only [serJson, serInt] at hc
        have hdig : ∀ d ∈ natDigits i.natAbs, isDigitChar d = true :=
          natDigits_all_digits i.natAbs
        split at hc
        · rcases List.mem_cons.mp hc with rfl | hc2
          · decide
          · exact digit_ne_nl (hdig c hc2)
        · exact digit_ne_nl (hdig c hc)
      | str s =>
        have hs : ∀ d ∈ s.data, strOkChar d = true := by
          simpa [jsonWF, strOk, List.all_eq_true] using hwf
        rcases List.mem_cons.mp hc with rfl | hc
        · decide
        rcases List.mem_append.mp hc with hck | hc
        · exact strOkChar_ne_nl (hs c hck)
        rcases List.mem_singleton.mp hc with rfl
        decide
      | arr es =>
        have hsz2 : sizeOf es < n := by
          have : sizeOf (Json.arr es) = 1 + sizeOf es := by simp
          omega
        rcases List.mem_cons.mp hc with rfl | hc
        · decide
        rcases List.mem_append.mp hc with hc2 | hc
        · exact (ih (sizeOf es) hsz2).2.1 es (le_refl _)
            (by simpa [jsonWF] using hwf) c hc2
        rcases List.mem_singleton.mp hc with rfl
        decide
      | obj fs =>
        have hsz2 : sizeOf fs < n := by
          have : sizeOf (Json.obj fs) = 1 + sizeOf fs := by simp
          omega
        rcases List.mem_cons.mp hc with rfl | hc
        · decide
        rcases List.mem_append.mp hc with hc2 | hc
        · exact (ih (sizeOf fs) hsz2).2.2 fs (le_refl _)
            (by simpa [jsonWF] using hwf) c hc2
        rcases List.mem_singleton.mp hc with rfl
        decide
    · intro es hsz hwf c hc
      cases es with
      | nil => simp [serElems] at hc
      | cons e es2 =>
        have hwf' : jsonWF e = true ∧ listWF es2 = true := by
          simpa [listWF, Bool.and_eq_true] using hwf
        have hsze : sizeOf e < sizeOf (e :: es2) := by
          have : sizeOf (e :: es2) = 1 + sizeOf e + sizeOf es2 := by simp
          omega
        have hszes : sizeOf es2 < sizeOf (e :: es2) := by
          have : sizeOf (e :: es2) = 1 + sizeOf e + sizeOf es2 := by simp
          omega
        cases es2 with
        | nil =>
          have : serElems [e] = serJson e := by simp [serElems]
          rw [this] at hc
          exact (ih (sizeOf e) (by omega)).1 e (le_refl _) hwf'.1 c hc
        | cons e2 es3 =>
          have heq : serElems (e :: e2 :: es3) = serJson e ++ ',' :: serElems (e2 :: es3) := by
            simp [serElems]
          rw [heq] at hc
          rcases List.mem_append.mp hc with hc1 | hc
          · exact (ih (sizeOf e) (by omega)).1 e (le_refl _) hwf'.1 c hc1
          rcases List.mem_cons.mp hc with rfl | hc2
          · decide
          exact (ih (sizeOf (e2 :: es3)) (by omega)).2.1 (e2 :: es3) (le_refl _)
            hwf'.2 c hc2
    · intro fs hsz hwf c hc
      cases fs with
      | nil => simp [serMembers] at hc
      | cons kv fs2 =>
        obtain ⟨k, v⟩ := kv
        have hwf' : strOk k = true ∧ jsonWF v = true ∧ membersWF fs2 = true := by
          simp only [membersWF, Bool.and_eq_true] at hwf
          tauto
        have hks : ∀ d ∈ k.data, strOkChar d = true := by
          have := hwf'.1
          simpa [strOk, List.all_eq_true] using this
        have hszv : sizeOf v < sizeOf ((k, v) :: fs2) := by
          have h1 : sizeOf ((k, v) :: fs2) = 1 + sizeOf (k, v) + sizeOf fs2 := by simp
          have h2 : sizeOf (k, v) = 1 + sizeOf k + sizeOf v := by simp
          omega
        have hszf : sizeOf fs2 < sizeOf ((k, v) :: fs2) := by
          have h1 : sizeOf ((k, v) :: fs2) = 1 + sizeOf (k, v) + sizeOf fs2 := by simp
          omega
        cases fs2 with
        | nil =>
          have heq : serMembers [(k, v)] = '"' :: (k.data ++ '"' :: ':' :: serJson v) := by
            simp [serMembers]
          rw [heq] at hc
          rcases List.mem_cons.mp hc with rfl | hc
          · decide
          rcases List.mem_append.mp hc with hck | hc
          · exact strOkChar_ne_nl (hks c hck)
          rcases List.mem_cons.mp hc with rfl | hc
          · decide
          rcases List.mem_cons.mp hc with rfl | hcv
          · decide
          exact (ih (sizeOf v) (by omega)).1 v (le_refl _) hwf'.2.1 c hcv
        | cons kv2 fs3 =>
          have heq : serMembers ((k, v) :: kv2 :: fs3) =
              ('"' :: (k.data ++ '"' :: ':' :: serJson v)) ++ ',' :: serMembers (kv2 :: fs3) := by
            simp [serMembers]
          rw [heq] at hc
          rcases List.mem_append.mp hc with hc | hcr
          · rcases List.mem_cons.mp hc with rfl | hc
            · decide
            rcases List.mem_append.mp hc with hck | hc
            · exact strOkChar_ne_nl (hks c hck)
            rcases List.mem_cons.mp hc with rfl | hc
            · decide
            rcases List.mem_cons.mp hc with rfl | hcv
            · decide
            exact (ih (sizeOf v) (by omega)).1 v (le_refl _) hwf'.2.1 c hcv
          · rcases List.mem_cons.mp hcr with rfl | hcf
            · decide
            exact (ih (sizeOf (kv2 :: fs3)) (by omega)).2.2 (kv2 :: fs3) (le_refl _)
              hwf'.2.2 c hcf

theorem natDigits_rev_head (n : Nat) :
    ∃ c cs', (natDigits n).reverse = c :: cs' ∧ isDigitChar c = true := by
  rw [natDigits_eq]
  split
  · rename_i h
    exact ⟨digitChar n, [], rfl, isDigitChar_digitChar h⟩
  · refine ⟨digitChar (n % 10), (natDigits (n / 10)).reverse, ?_,
      isDigitChar_digitChar (Nat.mod_lt _ (by omega))⟩
    simp

theorem serJson_revHead_spec (v : Json) :
    ∃ c cs', (serJson v).reverse = c :: cs' ∧ isWsChar c = false := by
  cases v with
  | null => exact ⟨'l', _, rfl, by decide⟩
  | bool b =>
    cases b
    · exact ⟨'e', _, rfl, by decide⟩
    · exact ⟨'e', _, rfl, by decide⟩
  | num i =>
    simp only [serJson, serInt]
    split
    · obtain ⟨c, cs', heq, hd⟩ := natDigits_rev_head i.natAbs
      exact ⟨c, cs' ++ ['-'], by simp [heq], digit_not_ws hd⟩
    · obtain ⟨c, cs', heq, hd⟩ := natDigits_rev_head i.natAbs
      exact ⟨c, cs', heq, digit_not_ws hd⟩
  | str s => exact ⟨'"', s.data.reverse ++ ['"'], by simp [serJson], by decide⟩
  | arr es => exact ⟨']', (serElems es).reverse ++ ['['], by simp [serJson], by decide⟩
  | obj fs =>
    exact ⟨rbrace, (serMembers fs).reverse ++ [lbrace], by simp [serJson], by decide⟩

theorem stripChars_eq_self {cs : List Char}
    (h1 : cs.takeWhile isWsChar = []) (h2 : cs.reverse.takeWhile isWsChar = []) :
    stripChars cs = cs := by
  unfold stripChars
  rw [dropWhile_of_takeWhile_nil h1, dropWhile_of_takeWhile_nil h2, List.reverse_reverse]

theorem takeWhile_nil_of_head {c : Char} {cs : List Char} {p : Char → Bool}
    (h : p c = false) : (c :: cs).takeWhile p = [] := by
  simp [List.takeWhile_cons, h]

theorem stripChars_serJson (v : Json) : stripChars (serJson v) = serJson v := by
  obtain ⟨c1, cs1, he1, hw1, -⟩ := serJson_head_spec v
  obtain ⟨c2, cs2, he2, hw2⟩ := serJson_revHead_spec v
  exact stripChars_eq_self (by rw [he1]; exact takeWhile_nil_of_head hw1)
    (by rw [he2]; exact takeWhile_nil_of_head hw2)

theorem splitNl_no_nl : ∀ {l : List Char}, (∀ c ∈ l, ¬(c = '\n')) →
    splitNl l = [l] := by
  intro l
  induction l with
  | nil => intro _; rfl
  | cons c cs ih =>
    intro h
    have hc : ¬(c = '\n') := h c (by simp)
    simp only [splitNl, if_neg hc, ih (fun d hd => h d (by simp [hd]))]

theorem splitNl_append_nl : ∀ {l : List Char} (x : List Char),
    (∀ c ∈ l, ¬(c = '\n')) → splitNl (l ++ '\n' :: x) = l :: splitNl x := by
  intro l
  induction l with
  | nil => intro x _; simp [splitNl]
  | cons c cs ih =>
    intro x h
    have hc : ¬(c = '\n') := h c (by simp)
    simp only [List.cons_append, splitNl, if_neg hc, List.append_eq,
      ih x (fun d hd => h d (by simp [hd]))]

theorem splitNl_joinNl : ∀ (lines : List (List Char)), lines ≠ [] →
    (∀ l ∈ lines, ∀ c ∈ l, ¬(c = '\n')) → splitNl (joinNl lines) = lines := by
  intro lines
  induction lines with
  | nil => intro h _; exact absurd rfl h
  | cons l ls ih =>
    intro _ h
    cases ls with
    | nil => exact splitNl_no_nl (h l (by simp))
    | cons l2 ls2 =>
      have hj : joinNl (l :: l2 :: ls2) = l ++ '\n' :: joinNl (l2 :: ls2) := rfl
      rw [hj, splitNl_append_nl _ (h l (by simp)),
        ih (by simp) (fun m hm c hc => h m (by simp [hm]) c hc)]

theorem joinNl_concat : ∀ (lines : List (List Char)) (l : List Char),
    joinNl (lines ++ [l]) =
      (match lines with
       | [] => l
       | _ :: _ => joinNl lines ++ '\n' :: l) := by
  intro lines
  induction lines with
  | nil => intro l; rfl
  | cons l1 ls ih =>
    intro l
    cases ls with
    | nil => rfl
    | cons l2 ls2 =>
      show joinNl (l1 :: ((l2 :: ls2) ++ [l])) = joinNl (l1 :: l2 :: ls2) ++ '\n' :: l
      have h1 : joinNl (l1 :: ((l2 :: ls2) ++ [l])) =
          l1 ++ '\n' :: joinNl ((l2 :: ls2) ++ [l]) := by
        cases ls2 <;> rfl
      rw [h1, ih l]
      simp [joinNl, List.append_assoc]

theorem joinNl_cons_head (c : Char) (cs : List Char) (ls : List (List Char)) :
    ∃ tl, joinNl ((c :: cs) :: ls) = c :: tl := by
  cases ls with
  | nil => exact ⟨cs, rfl⟩
  | cons l2 ls2 => exact ⟨cs ++ '\n' :: joinNl (l2 :: ls2), rfl⟩

theorem stripChars_joinNl_ser (objs : List Json) (hne : objs ≠ []) :
    stripChars (joinNl (objs.map serJson)) = joinNl (objs.map serJson) := by
  obtain ⟨o1, os, rfl⟩ : ∃ o1 os, objs = o1 :: os := by
    cases objs with
    | nil => exact absurd rfl hne
    | cons a b => exact ⟨a, b, rfl⟩
  obtain ⟨c1, cs1, he1, hw1, -⟩ := serJson_head_spec o1
  have hhead : ∃ tl, joinNl ((o1 :: os).map serJson) = c1 :: tl := by
    have : (o1 :: os).map serJson = (c1 :: cs1) :: os.map serJson := by
      simp [he1]
    rw [this]
    exact joinNl_cons_head _ _ _
  obtain ⟨oN, osI, hsplit⟩ : ∃ oN osI, (o1 :: os) = osI ++ [oN] := by
    obtain ⟨osI, oN, h⟩ := List.eq_nil_or_concat (o1 :: os) |>.resolve_left (by simp)
    exact ⟨oN, osI, by simpa [List.concat_eq_append] using h⟩
  obtain ⟨c2, cs2, he2, hw2⟩ := serJson_revHead_spec oN
  have hrev : ∃ tl, (joinNl ((o1 :: os).map serJson)).reverse = c2 :: tl := by
    rw [hsplit, List.map_append, List.map_singleton, joinNl_concat]
    cases hI : osI.map serJson with
    | nil => exact ⟨cs2, by rw [he2]⟩
    | cons m ms =>
      refine ⟨cs2 ++ '\n' :: (joinNl (m :: ms)).reverse, ?_⟩
      rw [List.reverse_append]
      simp [he2]
  obtain ⟨tl1, ht1⟩ := hhead
  obtain ⟨tl2, ht2⟩ := hrev
  exact stripChars_eq_self (by rw [ht1]; exact takeWhile_nil_of_head hw1)
    (by rw [ht2]; exact takeWhile_nil_of_head hw2)

theorem parseJsonChars_jsonl_none (o1 o2 : Json) (os : List Json)
    (h1 : jsonWF o1 = true) :
    parseJsonChars (joinNl ((o1 :: o2 :: os).map serJson)) = none := by
  have hj : joinNl ((o1 :: o2 :: os).map serJson) =
      serJson o1 ++ '\n' :: joinNl ((o2 :: os).map serJson) := rfl
  unfold parseJsonChars
  rw [hj]
  have hfuel := (parse_ser_all
      ((serJson o1 ++ '\n' :: joinNl ((o2 :: os).map serJson)).length + 1)).1
    o1 ('\n' :: joinNl ((o2 :: os).map serJson)) h1
    (by simp [List.length_append]) (boundary_cons (by decide))
  simp only [hfuel]
  have hskip : skipWs ('\n' :: joinNl ((o2 :: os).map serJson)) =
      skipWs (joinNl ((o2 :: os).map serJson)) := by
    have hnw : isWsChar '\n' = true := by decide
    simp [skipWs, List.dropWhile_cons, hnw]
  rw [hskip]
  obtain ⟨c, cs', he, hw, -⟩ := serJson_head_spec o2
  have hmap : (o2 :: os).map serJson = (c :: cs') :: os.map serJson := by simp [he]
  obtain ⟨tl, htl⟩ := joinNl_cons_head c cs' (os.map serJson)
  rw [hmap, htl, skipWs_cons_of_not_ws hw]
  simp

theorem validLineObjs_map_ser (objs : List Json) (h : ∀ o ∈ objs, jsonWF o = true) :
    validLineObjs (objs.map serJson) = objs ∧
      malformedLineCount (objs.map serJson) = 0 := by
  induction objs with
  | nil => exact ⟨rfl, rfl⟩
  | cons o os ih =>
    have ho : jsonWF o = true := h o (by simp)
    obtain ⟨c, cs', he, -, -⟩ := serJson_head_spec o
    have hne : (stripChars (serJson o)).isEmpty = false := by
      rw [stripChars_serJson, he]
      rfl
    have hp : parseJsonChars (stripChars (serJson o)) = some o := by
      rw [stripChars_serJson]
      exact parseJsonChars_serJson o ho
    obtain ⟨ih1, ih2⟩ := ih (fun o' ho' => h o' (by simp [ho']))
    constructor
    · simp only [List.map_cons, validLineObjs, List.filterMap_cons, hne,
        Bool.false_eq_true, if_false, hp]
      exact congrArg (o :: ·) (by simpa [validLineObjs] using ih1)
    · have hcond : (!(stripChars (serJson o)).isEmpty &&
          (parseJsonChars (stripChars (serJson o))).isNone) = false := by
        rw [hp]
        simp
      simp only [List.map_cons, malformedLineCount, List.countP_cons, hcond, if_false,
        Nat.add_zero]
      simpa [malformedLineCount] using ih2

theorem load_json_data_single_line_counterexample :
    load_json_data (joinNl ([Json.obj []].map serJson)) = (some (Json.obj []), 0) ∧
    (some (Json.obj []) : Option Json) ≠
      some (Json.obj [("items", Json.arr [Json.obj []])]) := by
  constructor
  · rfl
  · intro h
    simp at h

theorem load_json_data_round_trip (v o1 o2 : Json) (os : List Json)
    (hv : jsonWF v = true) (h1 : jsonWF o1 = true) (h2 : jsonWF o2 = true)
    (hos : ∀ o ∈ os, jsonWF o = true) :
    load_json_data (serJson v) = (some v, 0) ∧
    load_json_data (joinNl ((o1 :: o2 :: os).map serJson)) =
      (some (Json.obj [("items", Json.arr (o1 :: o2 :: os))]), 0) := by
  have hall : ∀ o ∈ o1 :: o2 :: os, jsonWF o = true := by
    intro o ho
    rcases List.mem_cons.mp ho with rfl | ho
    · exact h1
    rcases List.mem_cons.mp ho with rfl | ho
    · exact h2
    exact hos o ho
  constructor
  · simp only [load_json_data, stripChars_serJson, parseJsonChars_serJson v hv]
  · have hnl : ∀ l ∈ (o1 :: o2 :: os).map serJson, ∀ c ∈ l, ¬(c = '\n') := by
      intro l hl c hc
      obtain ⟨o, ho, rfl⟩ := List.mem_map.mp hl
      exact (ser_no_nl (sizeOf o)).1 o (le_refl _) (hall o ho) c hc
    have hsplit := splitNl_joinNl ((o1 :: o2 :: os).map serJson) (by simp) hnl
    obtain ⟨hvo, hmc⟩ := validLineObjs_map_ser (o1 :: o2 :: os) hall
    simp only [load_json_data, stripChars_joinNl_ser (o1 :: o2 :: os) (by simp),
      parseJsonChars_jsonl_none o1 o2 os h1, hsplit, foldl_lineStep,
      List.nil_append, Nat.zero_add, hvo, hmc]
    simp

theorem load_json_data_skips_malformed (content : List Char)
    (hwhole : parseJsonChars (stripChars content) = none)
    (hvalid : (validLineObjs (splitNl (stripChars content))).isEmpty = false)
    (_hbad : 1 ≤ malformedLineCount (splitNl (stripChars content))) :
    load_json_data content =
      (some (Json.obj [("items",
        Json.arr (validLineObjs (splitNl (stripChars content))))]),
       malformedLineCount (splitNl (stripChars content))) := by
  have hvalid' : ¬(validLineObjs (splitNl (stripChars content)) = []) := by
    intro h
    rw [h] at hvalid
    exact absurd hvalid (by simp)
  simp only [load_json_data, hwhole, foldl_lineStep, List.nil_append, Nat.zero_add]
  simp [hvalid']

theorem load_json_data_round_trip_witness :
    load_json_data (serJson (Json.obj [("devices", Json.arr [Json.str "iPhone 12"])])) =
      (some (Json.obj [("devices", Json.arr [Json.str "iPhone 12"])]), 0) ∧
    load_json_data (joinNl
        (([Json.obj [("a", Json.num 1)], Json.obj [("b", Json.num 2)]]).map serJson)) =
      (some (Json.obj [("items",
        Json.arr [Json.obj [("a", Json.num 1)], Json.obj [("b", Json.num 2)]])]), 0) :=
  load_json_data_round_trip
    (Json.obj [("devices", Json.arr [Json.str "iPhone 12"])])
    (Json.obj [("a", Json.num 1)]) (Json.obj [("b", Json.num 2)]) []
    (by rfl) (by rfl) (by rfl) (by simp)

theorem load_json_data_skips_malformed_witness :
    load_json_data (serJson (Json.obj []) ++ '\n' :: [']', '[']) =
      (some (Json.obj [("items", Json.arr [Json.obj []])]), 1) := by
  have h := load_json_data_skips_malformed
    (serJson (Json.obj []) ++ '\n' :: [']', '[']) (by rfl) (by rfl) (by decide)
  exact h

theorem takeWhile_dropWhile_nil {α : Type} (p : α → Bool) :
    ∀ (l : List α), (l.dropWhile p).takeWhile p = [] := by
  intro l
  induction l with
  | nil => rfl
  | cons c cs ih =>
    simp only [List.dropWhile_cons]
    split
    · exact ih
    · rename_i hp
      simp only [List.takeWhile_cons]
      rw [if_neg hp]

theorem takeWhile_eq_nil_of_prefix {α : Type} {p : α → Bool} :
    ∀ {xs ys : List α}, xs <+: ys → ys.takeWhile p = [] → xs.takeWhile p = [] := by
  intro xs ys hpre hys
  cases xs with
  | nil => rfl
  | cons x xs =>
    obtain ⟨t, ht⟩ := hpre
    rw [← ht] at hys
    simp only [List.cons_append, List.takeWhile_cons] at hys ⊢
    split at hys
    · exact absurd hys (by simp)
    · rename_i hp
      rw [if_neg hp]

theorem suffix_reverse_prefix {α : Type} {l1 l2 : List α} (h : l1 <:+ l2) :
    l1.reverse <+: l2.reverse := by
  obtain ⟨t, rfl⟩ := h
  exact ⟨t.reverse, by simp⟩

theorem stripChars_idem (cs : List Char) : stripChars (stripChars cs) = stripChars cs := by
  have hYrev : ((cs.dropWhile isWsChar).reverse.dropWhile isWsChar).reverse <+:
      cs.dropWhile isWsChar := by
    have h1 := suffix_reverse_prefix
      (List.dropWhile_suffix (l := (cs.dropWhile isWsChar).reverse) (p := isWsChar))
    rwa [List.reverse_reverse] at h1
  have hA : (stripChars cs).takeWhile isWsChar = [] :=
    takeWhile_eq_nil_of_prefix hYrev (takeWhile_dropWhile_nil isWsChar cs)
  have hB : (stripChars cs).reverse.takeWhile isWsChar = [] := by
    show ((((cs.dropWhile isWsChar).reverse.dropWhile isWsChar).reverse).reverse).takeWhile
      isWsChar = []
    rw [List.reverse_reverse]
    exact takeWhile_dropWhile_nil isWsChar (cs.dropWhile isWsChar).reverse
  exact stripChars_eq_self hA hB

theorem pyStrip_idem (s : String) : pyStrip (pyStrip s) = pyStrip s := by
  unfold pyStrip
  rw [show (String.mk (stripChars s.data)).data = stripChars s.data from rfl,
    stripChars_idem]

theorem extractNames_eq_specNames : ∀ (items : List Json),
    (∀ it ∈ items, itemNameOk it = true) →
    extractNames items = .ok (specNames items) := by
  intro items
  induction items with
  | nil => intro _; rfl
  | cons item rest ih =>
    intro h
    have hrest := ih (fun it hit => h it (by simp [hit]))
    have hitem := h item (by simp)
    cases item with
    | obj fs =>
      simp only [extractNames, specNames, List.filterMap_cons]
      cases hl : lookupLast fs "name" with
      | none => simpa [specNames] using hrest
      | some nv =>
        cases nv with
        | str s =>
          rw [hrest]
          by_cases hk : pyStrip s ≠ "" ∧ 2 < (pyStrip s).length
          · simp only [if_pos hk]
            simpa [specNames] using rfl
          · simp only [if_neg hk]
            simpa [specNames] using rfl
        | null => simp [itemNameOk, hl] at hitem
        | bool b => simp [itemNameOk, hl] at hitem
        | num i => simp [itemNameOk, hl] at hitem
        | arr es => simp [itemNameOk, hl] at hitem
        | obj fs2 => simp [itemNameOk, hl] at hitem
    | null => simpa [extractNames, specNames, List.filterMap_cons] using hrest
    | bool b => simpa [extractNames, specNames, List.filterMap_cons] using hrest
    | num i => simpa [extractNames, specNames, List.filterMap_cons] using hrest
    | str s => simpa [extractNames, specNames, List.filterMap_cons] using hrest
    | arr es => simpa [extractNames, specNames, List.filterMap_cons] using hrest

theorem extractNames_mem : ∀ (items : List Json) (ds : List String),
    extractNames items = .ok ds →
    ∀ d ∈ ds, pyStrip d = d ∧ d ≠ "" ∧ 2 < d.length := by
  intro items
  induction items with
  | nil =>
    intro ds h d hd
    simp only [extractNames] at h
    cases h
    simp at hd
  | cons item rest ih =>
    intro ds h d hd
    cases item with
    | obj fs =>
      cases hl : lookupLast fs "name" with
      | none =>
        simp only [extractNames, hl] at h
        exact ih ds h d hd
      | some nv =>
        cases nv with
        | str s =>
          cases htail : extractNames rest with
          | error e => simp [extractNames, hl, htail] at h
          | ok tail =>
            simp only [extractNames, hl, htail] at h
            by_cases hk : pyStrip s ≠ "" ∧ 2 < (pyStrip s).length
            · rw [if_pos hk] at h
              cases h
              rcases List.mem_cons.mp hd with rfl | hd2
              · exact ⟨pyStrip_idem s, hk.1, hk.2⟩
              · exact ih _ htail d hd2
            · rw [if_neg hk] at h
              cases h
              exact ih _ htail d hd
        | null => simp [extractNames, hl] at h
        | bool b => simp [extractNames, hl] at h
        | num i => simp [extractNames, hl] at h
        | arr es => simp [extractNames, hl] at h
        | obj fs2 => simp [extractNames, hl] at h
    | null => exact ih ds h d hd
    | bool b => exact ih ds h d hd
    | num i => exact ih ds h d hd
    | str s => exact ih ds h d hd
    | arr es => exact ih ds h d hd

theorem extractScripts_skip (url : String) (p : String) (ps : List String)
    (hp : scriptNonMatching p = true) :
    extractScripts url (p :: ps) = extractScripts url ps := by
  cases hparse : parseJson p with
  | none => simp only [extractScripts, hparse]
  | some d =>
    have hshape : jsonLdShape d = none := by
      simp only [scriptNonMatching, hparse, Option.isNone_iff_eq_none] at hp
      exact hp
    simp only [extractScripts, hparse, hshape]

theorem extractScripts_some_inv : ∀ (url : String) (ss : List String) (r : DevicesResult),
    extractScripts url ss = some r →
    r.source = "json_ld_schema" ∧ r.total_devices = r.devices.length ∧
    r.url = url ∧ ∃ items, extractNames items = .ok r.devices := by
  intro url ss
  induction ss with
  | nil => intro r h; cases h
  | cons s rest ih =>
    intro r h
    cases hparse : parseJson s with
    | none =>
      simp only [extractScripts, hparse] at h
      exact ih r h
    | some data =>
      cases hshape : jsonLdShape data with
      | none =>
        simp only [extractScripts, hparse, hshape] at h
        exact ih r h
      | some items =>
        cases hnm : extractNames items with
        | error e => simp [extractScripts, hparse, hshape, hnm] at h
        | ok devices =>
          simp only [extractScripts, hparse, hshape, hnm] at h
          by_cases hemp : devices.isEmpty
          · rw [if_pos (by simpa using hemp)] at h
            cases h
          · rw [if_neg (by simpa using hemp)] at h
            cases h
            exact ⟨rfl, rfl, rfl, items, hnm⟩

theorem parse_html_fallback_singleton (doc : HtmlDoc) :
    ∃ x, parse_html_fallback doc = [x] := by
  unfold parse_html_fallback
  split
  · exact ⟨_, rfl⟩
  · exact ⟨_, rfl⟩

theorem pyListSetGo_subset : ∀ (l seen : List String) (x : String),
    x ∈ pyListSetGo l seen → x ∈ l := by
  intro l
  induction l with
  | nil => intro seen x h; cases h
  | cons a as ih =>
    intro seen x h
    simp only [pyListSetGo] at h
    split at h
    · exact List.mem_cons_of_mem _ (ih _ x h)
    · rcases List.mem_cons.mp h with rfl | h2
      · exact List.mem_cons_self _ _
      · exact List.mem_cons_of_mem _ (ih _ x h2)

theorem fallbackPassA_mem (items : List (Option String)) (d : String)
    (h : d ∈ fallbackPassA items) : pyStrip d = d ∧ d ≠ "" ∧ 3 < d.length := by
  obtain ⟨it, hit, hd⟩ := List.mem_filterMap.mp h
  cases it with
  | none => cases hd
  | some t =>
    by_cases h1 : t = ""
    · simp [h1] at hd
    · simp only [h1, if_false] at hd
      simp at hd
      obtain ⟨⟨hlen, -⟩, rfl⟩ := hd
      refine ⟨pyStrip_idem t, ?_, hlen⟩
      intro he
      exact absurd (he ▸ hlen) (by decide)

theorem fallbackPassB_mem (hs : List Heading) (d : String)
    (h : d ∈ fallbackPassB hs) : pyStrip d = d ∧ d ≠ "" ∧ 3 < d.length := by
  obtain ⟨hd1, hhd, hmem⟩ := List.mem_flatMap.mp h
  cases hhd1 : hd1.text with
  | none => rw [hhd1] at hmem; cases hmem
  | some ht =>
    rw [hhd1] at hmem
    by_cases h1 : ht = ""
    · simp [h1] at hmem
    · simp only [h1, if_false] at hmem
      by_cases h2 : (headingKeywords.any fun kw => strContains (pyLower ht) kw) = true
      · simp only [h2, if_true] at hmem
        obtain ⟨ul, hul, hit⟩ := List.mem_flatMap.mp hmem
        obtain ⟨it, hitm, hd⟩ := List.mem_filterMap.mp hit
        simp at hd
        obtain ⟨⟨hne, hlen⟩, rfl⟩ := hd
        exact ⟨pyStrip_idem it, hne, hlen⟩
      · simp [h2] at hmem

theorem extractScripts_through_pre (url : String) :
    ∀ (pre : List String), (∀ p ∈ pre, scriptNonMatching p = true) →
    ∀ (rest : List String), extractScripts url (pre ++ rest) = extractScripts url rest := by
  intro pre
  induction pre with
  | nil => intro _ rest; rfl
  | cons p ps ih =>
    intro h rest
    rw [List.cons_append, extractScripts_skip url p _ (h p (by simp))]
    exact ih (fun q hq => h q (by simp [hq])) rest

theorem parse_html_fallback_source (doc : HtmlDoc) (r : DevicesResult)
    (h : CrawlItem.devices r ∈ parse_html_fallback doc) :
    r.source = "html_fallback" := by
  unfold parse_html_fallback at h
  split at h
  · simp at h
  · rcases List.mem_singleton.mp h with heq
    cases heq
    rfl

theorem extract_json_ld_first_match (doc : HtmlDoc) (pre post : List String)
    (s : String) (data : Json) (items : List Json)
    (hscripts : doc.jsonLdScripts = pre ++ s :: post)
    (hpre : ∀ p ∈ pre, scriptNonMatching p = true)
    (hparse : parseJson s = some data)
    (hshape : jsonLdShape data = some items)
    (hnames : ∀ it ∈ items, itemNameOk it = true)
    (hne : specNames items ≠ []) :
    extract_json_ld_data doc = some
      { category := "eSIM Compatible Devices"
        devices := specNames items
        source := "json_ld_schema"
        total_devices := (specNames items).length
        url := doc.url
        title := some (jsonLdTitle data) } := by
  unfold extract_json_ld_data
  rw [hscripts, extractScripts_through_pre doc.url pre hpre (s :: post)]
  simp only [extractScripts, hparse, hshape, extractNames_eq_specNames items hnames]
  rw [if_neg (by simpa using hne)]

theorem extract_json_ld_first_match_witness :
    extract_json_ld_data
      { url := "u", text := "", listItemTexts := [], headings := [],
        jsonLdScripts := ["not json", String.mk (serJson (Json.obj [("mainEntity",
          Json.obj [("itemListElement", Json.arr
            [Json.obj [("name", Json.str " iPhone 12 ")],
             Json.obj [("name", Json.str "Pixel 7")],
             Json.obj [("name", Json.str "XY")]])])]))] } = some
      { category := "eSIM Compatible Devices"
        devices := ["iPhone 12", "Pixel 7"]
        source := "json_ld_schema"
        total_devices := 2
        url := "u"
        title := some (Json.str "eSIM Compatible Devices List") } :=
  extract_json_ld_first_match _ ["not json"] []
    (String.mk (serJson (Json.obj [("mainEntity",
      Json.obj [("itemListElement", Json.arr
        [Json.obj [("name", Json.str " iPhone 12 ")],
         Json.obj [("name", Json.str "Pixel 7")],
         Json.obj [("name", Json.str "XY")]])])])))
    (Json.obj [("mainEntity",
      Json.obj [("itemListElement", Json.arr
        [Json.obj [("name", Json.str " iPhone 12 ")],
         Json.obj [("name", Json.str "Pixel 7")],
         Json.obj [("name", Json.str "XY")]])])])
    [Json.obj [("name", Json.str " iPhone 12 ")],
     Json.obj [("name", Json.str "Pixel 7")],
     Json.obj [("name", Json.str "XY")]]
    rfl (by decide) rfl rfl (by decide) (by decide)

theorem extract_json_ld_early_stop (doc : HtmlDoc) (pre mid post : List String)
    (s1 s2 : String) (d1 d2 : Json) (items1 items2 : List Json)
    (hscripts : doc.jsonLdScripts = pre ++ s1 :: (mid ++ s2 :: post))
    (hpre : ∀ p ∈ pre, scriptNonMatching p = true)
    (hparse1 : parseJson s1 = some d1)
    (hshape1 : jsonLdShape d1 = some items1)
    (hnames1 : ∀ it ∈ items1, itemNameOk it = true)
    (hempty1 : specNames items1 = [])
    (_hparse2 : parseJson s2 = some d2)
    (_hshape2 : jsonLdShape d2 = some items2)
    (_husable2 : specNames items2 ≠ []) :
    extract_json_ld_data doc = none := by
  unfold extract_json_ld_data
  rw [hscripts, extractScripts_through_pre doc.url pre hpre _]
  simp only [extractScripts, hparse1, hshape1,
    extractNames_eq_specNames items1 hnames1, hempty1]
  rfl

theorem extract_json_ld_early_stop_witness :
    extract_json_ld_data
      { url := "u", text := "", listItemTexts := [], headings := [],
        jsonLdScripts :=
          [String.mk (serJson (Json.obj [("mainEntity",
            Json.obj [("itemListElement",
              Json.arr [Json.obj [("name", Json.str "ab")]])])])),
           String.mk (serJson (Json.obj [("mainEntity",
            Json.obj [("itemListElement",
              Json.arr [Json.obj [("name", Json.str "Galaxy S24")]])])]))] } = none := by
  exact extract_json_ld_early_stop _ [] [] [] _ _ _ _ _ _
    rfl (by simp) rfl rfl (by decide) rfl rfl rfl (by decide)

theorem devices_result_invariants :
    (∀ (doc : HtmlDoc) (r : DevicesResult), extract_json_ld_data doc = some r →
      r.total_devices = r.devices.length ∧
      ∀ d ∈ r.devices, pyStrip d = d ∧ d ≠ "" ∧ 2 < d.length) ∧
    (∀ (doc : HtmlDoc) (r : DevicesResult),
      CrawlItem.devices r ∈ parse_html_fallback doc →
      r.total_devices = r.devices.length ∧
      ∀ d ∈ r.devices, pyStrip d = d ∧ d ≠ "" ∧ 3 < d.length) := by
  constructor
  · intro doc r h
    obtain ⟨-, htot, -, items, hnm⟩ :=
      extractScripts_some_inv doc.url doc.jsonLdScripts r h
    exact ⟨htot, extractNames_mem items r.devices hnm⟩
  · intro doc r h
    unfold parse_html_fallback at h
    split at h
    · simp at h
    · rcases List.mem_singleton.mp h with heq
      cases heq
      refine ⟨rfl, ?_⟩
      intro d hd
      have hd' := List.mem_filter.mp hd
      have hmem := pyListSetGo_subset _ [] d hd'.1
      rcases List.mem_append.mp hmem with hA | hB
      · exact fallbackPassA_mem _ d hA
      · exact fallbackPassB_mem _ d hB

theorem devices_result_invariants_counterexample :
    extract_json_ld_data
      { url := "u", text := "", listItemTexts := [], headings := [],
        jsonLdScripts := [String.mk (serJson (Json.obj [("mainEntity",
          Json.obj [("itemListElement",
            Json.arr [Json.obj [("name", Json.str "abc")]])])]))] } = some
      { category := "eSIM Compatible Devices"
        devices := ["abc"]
        source := "json_ld_schema"
        total_devices := 1
        url := "u"
        title := some (Json.str "eSIM Compatible Devices List") } ∧
    ¬(3 < (pyStrip "abc").length) := ⟨rfl, by decide⟩

theorem devices_result_invariants_witness :
    ((1 : Nat) = (["abc"] : List String).length ∧
      ∀ d ∈ (["abc"] : List String), pyStrip d = d ∧ d ≠ "" ∧ 2 < d.length) ∧
    ((1 : Nat) = (["iPhone 12 Pro"] : List String).length ∧
      ∀ d ∈ (["iPhone 12 Pro"] : List String),
        pyStrip d = d ∧ d ≠ "" ∧ 3 < d.length) := by
  constructor
  · exact devices_result_invariants.1
      { url := "u", text := "", listItemTexts := [], headings := [],
        jsonLdScripts := [String.mk (serJson (Json.obj [("mainEntity",
          Json.obj [("itemListElement",
            Json.arr [Json.obj [("name", Json.str "abc")]])])]))] }
      { category := "eSIM Compatible Devices", devices := ["abc"],
        source := "json_ld_schema", total_devices := 1, url := "u",
        title := some (Json.str "eSIM Compatible Devices List") } rfl
  · exact devices_result_invariants.2
      { url := "u", text := "", jsonLdScripts := [],
        listItemTexts := [some "iPhone 12 Pro"], headings := [] }
      { category := "eSIM Compatible Devices (HTML Fallback)",
        devices := ["iPhone 12 Pro"], source := "html_fallback",
        total_devices := 1, url := "u", title := none }
      (by exact List.mem_singleton_self _)

theorem parse_blocked (doc : HtmlDoc)
    (h : strContains (pyLower doc.text) "cloudflare" = true ∨
         strContains (pyLower doc.text) "aws waf" = true) :
    parse doc = CrawlItem.blocked doc.url "Cloudflare/AWS WAF protection detected"
        (String.mk (doc.text.data.take 200)) ∧
    (∀ (scripts : List String) (lis : List (Option String)) (hs : List Heading),
      parse { doc with
              jsonLdScripts := scripts
              listItemTexts := lis
              headings := hs } = parse doc) := by
  have hb : blockedCheck doc = true := by
    unfold blockedCheck
    rcases h with h | h <;> simp [h]
  constructor
  · simp [parse, hb]
  · intro scripts lis hs
    have hb2 : blockedCheck { doc with
        jsonLdScripts := scripts
        listItemTexts := lis
        headings := hs } = true := hb
    simp [parse, hb, hb2]

theorem parse_blocked_witness :
    parse { url := "u"
            text := "Attention Required! | Cloudflare"
            jsonLdScripts := ["junk"]
            listItemTexts := [some "iPhone 14"]
            headings := [] } =
      CrawlItem.blocked "u" "Cloudflare/AWS WAF protection detected"
        "Attention Required! | Cloudflare" :=
  (parse_blocked
    { url := "u"
      text := "Attention Required! | Cloudflare"
      jsonLdScripts := ["junk"]
      listItemTexts := [some "iPhone 14"]
      headings := [] } (Or.inl (by decide))).1

theorem parse_single_source (doc : HtmlDoc) (hnb : blockedCheck doc = false) :
    (∀ r, extract_json_ld_data doc = some r →
       parse doc = CrawlItem.devices r ∧ r.source = "json_ld_schema") ∧
    (extract_json_ld_data doc = none →
       ∃ x, parse_html_fallback doc = [x] ∧ parse doc = x) ∧
    (∀ r, parse doc = CrawlItem.devices r →
       (extract_json_ld_data doc = some r ∧ r.source = "json_ld_schema") ∨
       (extract_json_ld_data doc = none ∧
         CrawlItem.devices r ∈ parse_html_fallback doc ∧
         r.source = "html_fallback")) := by
  refine ⟨?_, ?_, ?_⟩
  · intro r hr
    refine ⟨by simp [parse, hnb, hr],
      (extractScripts_some_inv doc.url doc.jsonLdScripts r hr).1⟩
  · intro hn
    obtain ⟨x, hx⟩ := parse_html_fallback_singleton doc
    exact ⟨x, hx, by simp [parse, hnb, hn, hx]⟩
  · intro r hr
    cases hext : extract_json_ld_data doc with
    | some r0 =>
      left
      have hpd : parse doc = CrawlItem.devices r0 := by simp [parse, hnb, hext]
      rw [hr] at hpd
      cases hpd
      exact ⟨rfl, (extractScripts_some_inv doc.url doc.jsonLdScripts r hext).1⟩
    | none =>
      right
      obtain ⟨x, hx⟩ := parse_html_fallback_singleton doc
      have hpd : parse doc = x := by simp [parse, hnb, hext, hx]
      have hxr : x = CrawlItem.devices r := by rw [← hpd, hr]
      have hmem : CrawlItem.devices r ∈ parse_html_fallback doc := by
        rw [hx, hxr]
        exact List.mem_singleton_self _
      exact ⟨rfl, hmem, parse_html_fallback_source doc r hmem⟩

theorem parse_single_source_witness :
    ∃ x, parse_html_fallback
        { url := "u"
          text := ""
          jsonLdScripts := []
          listItemTexts := []
          headings := [] } = [x] ∧
      parse { url := "u"
              text := ""
              jsonLdScripts := []
              listItemTexts := []
              headings := [] } = x :=
  (parse_single_source
    { url := "u"
      text := ""
      jsonLdScripts := []
      listItemTexts := []
      headings := [] } rfl).2.1 rfl

theorem successSpec_cons_iff (o : AttemptOutcome) (rest : List AttemptOutcome) :
    successSpec (o :: rest) ↔
      (o = .status 200 ∨ (isRetryFailure o = true ∧ successSpec rest)) := by
  constructor
  · rintro ⟨i, hi, ht⟩
    cases i with
    | zero =>
      left
      simpa using hi
    | succ j =>
      right
      simp only [List.getElem?_cons_succ] at hi
      simp only [List.take_succ_cons, List.all_cons, Bool.and_eq_true] at ht
      exact ⟨ht.1, j, hi, ht.2⟩
  · rintro (rfl | ⟨hro, j, hj, ht⟩)
    · exact ⟨0, by simp, by simp⟩
    · exact ⟨j + 1, by simpa using hj,
        by simp [List.take_succ_cons, List.all_cons, hro, ht]⟩

theorem send_webhook_correct (outcomes : List AttemptOutcome) :
    ((send_webhook_data outcomes).1 = true ↔ successSpec outcomes) ∧
    (outcomes.all isRetryFailure = true →
      send_webhook_data outcomes = (false, outcomes.length)) ∧
    (∀ i, outcomes[i]? = some (.status 200) →
      (outcomes.take i).all isRetryFailure = true →
      send_webhook_data outcomes = (true, i + 1)) := by
  induction outcomes with
  | nil =>
    refine ⟨?_, ?_, ?_⟩
    · simp [send_webhook_data, successSpec]
    · intro _; rfl
    · intro i hi _
      simp at hi
  | cons o rest ih =>
    obtain ⟨ih1, ih2, ih3⟩ := ih
    refine ⟨?_, ?_, ?_⟩
    · rw [successSpec_cons_iff]
      cases o with
      | status c =>
        by_cases hc : c = 200
        · subst hc
          simp [send_webhook_data]
        · simp only [send_webhook_data, if_neg hc]
          rw [ih1]
          constructor
          · intro h
            right
            exact ⟨by simp [isRetryFailure, hc], h⟩
          · rintro (heq | ⟨-, h⟩)
            · simp [hc] at heq
            · exact h
      | transportError =>
        by_cases he : rest.isEmpty
        · have hrest : rest = [] := by simpa using he
          subst hrest
          simp [send_webhook_data, successSpec]
        · simp only [send_webhook_data, if_neg he]
          rw [ih1]
          constructor
          · intro h
            right
            exact ⟨rfl, h⟩
          · rintro (heq | ⟨-, h⟩)
            · cases heq
            · exact h
      | otherError =>
        simp [send_webhook_data, isRetryFailure]
    · intro hall
      simp only [List.all_cons, Bool.and_eq_true] at hall
      cases o with
      | status c =>
        have hc : ¬c = 200 := by
          simpa [isRetryFailure, decide_eq_true_eq] using hall.1
        simp [send_webhook_data, if_neg hc, ih2 hall.2]
      | transportError =>
        by_cases he : rest.isEmpty
        · have hrest : rest = [] := by simpa using he
          subst hrest
          rfl
        · simp [send_webhook_data, if_neg he, ih2 hall.2]
      | otherError =>
        simp [isRetryFailure] at hall
    · intro i hi htake
      cases i with
      | zero =>
        have ho : o = .status 200 := by simpa using hi
        subst ho
        simp [send_webhook_data]
      | succ j =>
        simp only [List.getElem?_cons_succ] at hi
        simp only [List.take_succ_cons, List.all_cons, Bool.and_eq_true] at htake
        cases o with
        | status c =>
          have hc : ¬c = 200 := by
            simpa [isRetryFailure, decide_eq_true_eq] using htake.1
          simp [send_webhook_data, if_neg hc, ih3 j hi htake.2]
        | transportError =>
          have hne2 : ¬rest = [] := by
            intro h
            subst h
            simp at hi
          simp [send_webhook_data, hne2, ih3 j hi htake.2]
        | otherError =>
          simp [isRetryFailure] at htake

theorem send_webhook_correct_witness :
    send_webhook_data [.status 500, .status 500, .status 200] = (true, 3) ∧
    send_webhook_data [.status 500, .status 500, .status 500] = (false, 3) := by
  constructor
  · exact (send_webhook_correct [.status 500, .status 500, .status 200]).2.2 2
      (by decide) (by decide)
  · exact (send_webhook_correct [.status 500, .status 500, .status 500]).2.1
      (by decide)

theorem send_webhook_aborts_on_other (outcomes : List AttemptOutcome) :
    ∀ i, outcomes[i]? = some .otherError →
      (outcomes.take i).all isRetryFailure = true →
      send_webhook_data outcomes = (false, i + 1) := by
  induction outcomes with
  | nil =>
    intro i hi _
    simp at hi
  | cons o rest ih =>
    intro i hi htake
    cases i with
    | zero =>
      have ho : o = .otherError := by simpa using hi
      subst ho
      rfl
    | succ j =>
      simp only [List.getElem?_cons_succ] at hi
      simp only [List.take_succ_cons, List.all_cons, Bool.and_eq_true] at htake
      cases o with
      | status c =>
        have hc : ¬c = 200 := by
          simpa [isRetryFailure, decide_eq_true_eq] using htake.1
        simp [send_webhook_data, if_neg hc, ih j hi htake.2]
      | transportError =>
        have hne2 : ¬rest = [] := by
          intro h
          subst h
          simp at hi
        simp [send_webhook_data, hne2, ih j hi htake.2]
      | otherError =>
        simp [isRetryFailure] at htake

theorem send_webhook_aborts_on_other_witness :
    send_webhook_data [.status 500, .otherError, .status 200] = (false, 2) :=
  send_webhook_aborts_on_other [.status 500, .otherError, .status 200] 1
    (by decide) (by decide)

theorem guardedDelete_ok (path : String) (present : Bool)
    (unlinkRes : Except String Unit) (catchLevel : LogLevel)
    (catchMsg : String → String) :
    ∃ l, guardedDelete path present unlinkRes catchLevel catchMsg = Except.ok l ∧
      (present = true → ∀ e, unlinkRes = Except.error e → (catchLevel, catchMsg e) ∈ l) := by
  unfold guardedDelete
  by_cases hp : present = true
  · rw [if_pos hp]
    cases unlinkRes with
    | ok u =>
      refine ⟨[(LogLevel.info, "Deleted " ++ path)], rfl, ?_⟩
      intro _ e he
      cases he
    | error e =>
      refine ⟨[(catchLevel, catchMsg e)], rfl, ?_⟩
      intro _ e' he'
      cases he'
      exact List.mem_singleton_self _
  · rw [if_neg hp]
    exact ⟨_, rfl, fun hpre => absurd hpre hp⟩

theorem cleanup_files_never_raises (fs : FileSys) :
    ∃ logs, cleanup_files fs = Except.ok logs ∧
      (LogLevel.info, "File cleanup completed.") ∈ logs ∧
      (∀ e, fs.outputPresent = true → fs.outputUnlink = Except.error e →
        (LogLevel.error, "Error deleting " ++ json_output ++ ": " ++ e) ∈ logs) ∧
      (∀ e, fs.renderedPresent = true → fs.renderedUnlink = Except.error e →
        (LogLevel.error, "Error deleting " ++ rendered_page ++ ": " ++ e) ∈ logs) ∧
      (∀ e, fs.logPresent = true → fs.logUnlink = Except.error e →
        (LogLevel.info, "Could not delete " ++ log_file ++ " (file may be in use): " ++ e)
          ∈ logs) := by
  obtain ⟨l1, h1, m1⟩ := guardedDelete_ok json_output fs.outputPresent fs.outputUnlink
    LogLevel.error (fun e => "Error deleting " ++ json_output ++ ": " ++ e)
  obtain ⟨l2, h2, m2⟩ := guardedDelete_ok rendered_page fs.renderedPresent fs.renderedUnlink
    LogLevel.error (fun e => "Error deleting " ++ rendered_page ++ ": " ++ e)
  obtain ⟨l3, h3, m3⟩ := guardedDelete_ok log_file fs.logPresent fs.logUnlink
    LogLevel.info (fun e => "Could not delete " ++ log_file ++ " (file may be in use): " ++ e)
  refine ⟨[(LogLevel.info, "Starting file cleanup...")] ++ l1 ++ l2 ++ l3 ++
    [(LogLevel.info, "File cleanup completed.")], ?_, ?_, ?_, ?_, ?_⟩
  · simp only [cleanup_files, h1, h2, h3]
    rfl
  · simp [List.mem_append]
  · intro e hp he
    have := m1 hp e he
    simp [List.mem_append, this]
  · intro e hp he
    have := m2 hp e he
    simp [List.mem_append, this]
  · intro e hp he
    have := m3 hp e he
    simp [List.mem_append, this]

theorem cleanup_files_never_raises_witness :
    ∃ logs, cleanup_files
        { outputPresent := true, outputUnlink := Except.error "locked",
          renderedPresent := true, renderedUnlink := Except.error "busy",
          logPresent := true, logUnlink := Except.error "in use" } = Except.ok logs ∧
      (LogLevel.error, "Error deleting yesim_devices.json: locked") ∈ logs := by
  obtain ⟨logs, hok, -, hout, -, -⟩ := cleanup_files_never_raises
    { outputPresent := true, outputUnlink := Except.error "locked",
      renderedPresent := true, renderedUnlink := Except.error "busy",
      logPresent := true, logUnlink := Except.error "in use" }
  exact ⟨logs, hok, hout "locked" rfl rfl⟩

end EsimCrawl
